import Mathlib

/-!
Verification of the request-coordination layer of the `assignment` backend:
the expiring LRU cache (`src/backend/src/cache/LRUCache.ts`), the dual-window
rate limiter (`RateLimiter` in `src/backend/src/middleware`), and the
single-flight bounded scheduler (`src/backend/src/queue/AsyncQueue.ts`).

Each TypeScript class is shallowly embedded as a Lean structure plus pure
transition functions; `Date.now()` becomes an explicit `now : Int` argument,
and the single-threaded run-to-completion semantics of the Node event loop
becomes a deterministic step function over explicit state.
-/

namespace Spec2Proof

/-! ## Expiring LRU cache (`LRUCache.ts`)

The doubly-linked recency list and the backing `Map` are always updated in
lockstep by the source (every delete pairs `cache.delete` with `removeNode`,
every insert pairs `cache.set` with `addToHead`), so a single list of entries
ordered head (most recent) to tail (least recent) embeds both. `stats.size`
is kept as a separate counter, exactly as in the source. -/

structure Entry (T : Type) where
  key : String
  value : T
  timestamp : Int
deriving DecidableEq, Repr

structure LRUCache (T : Type) where
  capacity : Nat
  ttl : Int
  entries : List (Entry T)
  hits : Nat
  misses : Nat
  size : Nat
  evictions : Nat
deriving DecidableEq, Repr

structure CacheStats where
  hits : Nat
  misses : Nat
  size : Nat
  evictions : Nat
deriving DecidableEq, Repr

namespace LRUCache

variable {T : Type}

/-- Fresh cache as produced by the constructor. -/
def empty (capacity : Nat) (ttl : Int) : LRUCache T :=
  ⟨capacity, ttl, [], 0, 0, 0, 0⟩

/-- Lookup in the backing map: `this.cache.get(key)`. -/
def findNode (c : LRUCache T) (key : String) : Option (Entry T) :=
  c.entries.find? (fun e => e.key == key)

/-- Embeds `isExpired`: `Date.now() - node.timestamp > this.ttl`. -/
def isExpired (c : LRUCache T) (e : Entry T) (now : Int) : Bool :=
  now - e.timestamp > c.ttl

/-- Embeds the paired `cache.delete(key)` / `removeNode(node)`: drop the unique
entry holding `key` from the recency list. -/
def removeKey (entries : List (Entry T)) (key : String) : List (Entry T) :=
  entries.eraseP (fun e => e.key == key)

/-- Embeds `evictLRU`: if a tail exists, drop it, decrement `size`, increment
`evictions`. -/
def evictLRU (c : LRUCache T) : LRUCache T :=
  match c.entries.getLast? with
  | none => c
  | some _ =>
    { c with entries := c.entries.dropLast,
             size := c.size - 1,
             evictions := c.evictions + 1 }

/-- Embeds `get`: miss on unknown key; on an expired entry remove it, count a
miss and shrink `size`; otherwise count a hit, move the node to the head and
return its value. -/
def get (c : LRUCache T) (key : String) (now : Int) : Option T × LRUCache T :=
  match c.findNode key with
  | none => (none, { c with misses := c.misses + 1 })
  | some node =>
    if c.isExpired node now then
      (none, { c with entries := removeKey c.entries key,
                      size := c.size - 1,
                      misses := c.misses + 1 })
    else
      (some node.value,
       { c with hits := c.hits + 1,
                entries := node :: removeKey c.entries key })

/-- Embeds `set`: an existing node is overwritten, restamped and moved to the
head; a new node is added at the head, `size` incremented, and `evictLRU` runs
when `size` exceeds `capacity`. -/
def set (c : LRUCache T) (key : String) (value : T) (now : Int) : LRUCache T :=
  match c.findNode key with
  | some _ =>
    { c with entries := ⟨key, value, now⟩ :: removeKey c.entries key }
  | none =>
    let c1 : LRUCache T :=
      { c with entries := ⟨key, value, now⟩ :: c.entries, size := c.size + 1 }
    if c1.size > c1.capacity then evictLRU c1 else c1

/-- Embeds `has`: peek with the same expiration removal as `get` but no
hit/miss accounting and no promotion. -/
def has (c : LRUCache T) (key : String) (now : Int) : Bool × LRUCache T :=
  match c.findNode key with
  | none => (false, c)
  | some node =>
    if c.isExpired node now then
      (false, { c with entries := removeKey c.entries key, size := c.size - 1 })
    else
      (true, c)

/-- Embeds `clear`: drops all entries and zeroes `size`; hit/miss/eviction
counters are kept. -/
def clear (c : LRUCache T) : LRUCache T :=
  { c with entries := [], size := 0 }

/-- Embeds `getStats`: a snapshot of the counters. -/
def getStats (c : LRUCache T) : CacheStats :=
  ⟨c.hits, c.misses, c.size, c.evictions⟩

/-- Embeds the body of the `keysToDelete.forEach` loop of
`cleanupStaleEntries`: remove `key` if still present (idempotent removal),
decrementing `size`. -/
def removeStale (acc : LRUCache T) (key : String) : LRUCache T :=
  match acc.findNode key with
  | some _ => { acc with entries := removeKey acc.entries key,
                         size := acc.size - 1 }
  | none => acc

/-- Embeds `cleanupStaleEntries`: collect the keys of all expired entries,
then remove each one that is still present, decrementing `size` per removal. -/
def cleanupStaleEntries (c : LRUCache T) (now : Int) : LRUCache T :=
  let keysToDelete :=
    (c.entries.filter (fun e => now - e.timestamp > c.ttl)).map (fun e => e.key)
  keysToDelete.foldl removeStale c

/-- Folds `set` over a list of (key, value, call-time) triples: a sequence of
`set` calls with no intervening `get`. -/
def setAll (c : LRUCache T) (ps : List (String × T × Int)) : LRUCache T :=
  ps.foldl (fun acc p => acc.set p.1 p.2.1 p.2.2) c

/-- Well-formedness of a reachable cache state: keys are pairwise distinct
(the list mirrors a `Map`) and the `size` counter agrees with the number of
live entries. -/
def WF (c : LRUCache T) : Prop :=
  (c.entries.map (fun e => e.key)).Nodup ∧ c.size = c.entries.length

end LRUCache

/-! ## Dual-window rate limiter (`RateLimiter`)

The `middleware` closure is embedded as a function from the client map, the
caller identity and the current time to an admission decision plus the
updated map. `Math.ceil(x / 1000)` on an exact integer quotient is embedded
as negated floor division. The `[0]` access on the pruned burst sequence is
embedded as `headI` (default `0`); the claims about denials only apply it
with a positive quota, where the sequence is provably nonempty. -/

structure RateLimitConfig where
  maxRequests : Nat
  windowMs : Int
  burstRequests : Nat
  burstWindowMs : Int
deriving DecidableEq, Repr

structure ClientRecord where
  requests : List Int
  burstRequests : List Int
deriving DecidableEq, Repr

inductive Decision where
  | allow
  | denyBurst (retryAfter : Int)
  | denyRate (retryAfter : Int)
deriving DecidableEq, Repr

namespace RateLimiter

/-- Embeds `Math.ceil(x / 1000)` for integer `x`. -/
def ceilDiv1000 (x : Int) : Int :=
  -((-x).fdiv 1000)

/-- Lookup in `this.clients`. -/
def getClient (clients : List (String × ClientRecord)) (clientId : String) :
    Option ClientRecord :=
  (clients.find? (fun p => p.1 == clientId)).map (fun p => p.2)

/-- Embeds `Map.set`: replace any record stored under `clientId`. -/
def setClient (clients : List (String × ClientRecord)) (clientId : String)
    (rec : ClientRecord) : List (String × ClientRecord) :=
  clients.filter (fun p => ¬p.1 == clientId) ++ [(clientId, rec)]

/-- The record `middleware` consults for `clientId` (lazily created when the
identity is new). -/
def clientRecord (clients : List (String × ClientRecord)) (clientId : String) :
    ClientRecord :=
  (getClient clients clientId).getD ⟨[], []⟩

/-- The sustained sequence after the pruning step of `middleware`:
timestamps older than `windowMs` are dropped. -/
def prunedRequests (cfg : RateLimitConfig)
    (clients : List (String × ClientRecord)) (clientId : String)
    (now : Int) : List Int :=
  (clientRecord clients clientId).requests.filter
    (fun t => now - t < cfg.windowMs)

/-- The burst sequence after the pruning step of `middleware`: timestamps
older than `burstWindowMs` are dropped. -/
def prunedBursts (cfg : RateLimitConfig)
    (clients : List (String × ClientRecord)) (clientId : String)
    (now : Int) : List Int :=
  (clientRecord clients clientId).burstRequests.filter
    (fun t => now - t < cfg.burstWindowMs)

/-- Embeds one invocation of the `middleware` closure for identity
`clientId` at time `now`: fetch or lazily create the record, prune both
sequences, check the burst quota first, then the sustained quota, and on
allow append `now` to both sequences. In the source the record object held
by the map is mutated in place, so the pruned (and possibly extended)
sequences persist in every branch. -/
def middleware (cfg : RateLimitConfig) (clients : List (String × ClientRecord))
    (clientId : String) (now : Int) :
    Decision × List (String × ClientRecord) :=
  let reqs := prunedRequests cfg clients clientId now
  let bursts := prunedBursts cfg clients clientId now
  if bursts.length ≥ cfg.burstRequests then
    (Decision.denyBurst (ceilDiv1000 (bursts.headI + cfg.burstWindowMs - now)),
     setClient clients clientId ⟨reqs, bursts⟩)
  else if reqs.length ≥ cfg.maxRequests then
    (Decision.denyRate (ceilDiv1000 (reqs.headI + cfg.windowMs - now)),
     setClient clients clientId ⟨reqs, bursts⟩)
  else
    (Decision.allow, setClient clients clientId ⟨reqs ++ [now], bursts ++ [now]⟩)

/-- Runs `middleware` over a list of (identity, time) calls, collecting the
decisions in order. -/
def runCalls (cfg : RateLimitConfig) (clients : List (String × ClientRecord)) :
    List (String × Int) → List Decision × List (String × ClientRecord)
  | [] => ([], clients)
  | c :: cs =>
    let r := middleware cfg clients c.1 c.2
    let rest := runCalls cfg r.2 cs
    (r.1 :: rest.1, rest.2)

end RateLimiter

/-! ## Single-flight bounded scheduler (`AsyncQueue.ts`)

Node's event loop runs each synchronous block atomically, so the scheduler
is embedded as a deterministic transition system with two events:

* `enq id caller` — one `enqueue(id, fn)` call, including the synchronous
  `processQueue()` it triggers. When `processing` holds `id`, the caller is
  attached as a waiter of that execution and nothing else changes (the
  caller returns the stored promise); otherwise the task is pushed and
  `processQueue` may start at most one task.
* `settle rid res` — the fetch of execution `rid` settles with `res`. The
  `try/catch/finally` block then runs synchronously before any waiter
  continuation: the result is fanned out to every attached waiter
  (`task.resolve`/`task.reject` for the creator, the shared promise for the
  joiners), `processing.delete(task.id)` removes the id entry, the slot
  count drops, and `processQueue()` may start the next queued task.

`started` is a log of fetch-function invocations (one entry per execution)
and `delivered` a log of results handed to waiters; neither exists as code
state — they record the observable events the claims quantify over. All
errors raised by the fetch callbacks of this repository are `Error`
instances (`NotFoundError`), on which the `error instanceof Error` guard in
the catch block is the identity, so a settlement result is a plain
`Except Nat Nat` shared by creator and joiners. -/

instance : DecidableEq (Except Nat Nat) := fun a b =>
  match a, b with
  | Except.ok x, Except.ok y =>
    if h : x = y then isTrue (by rw [h]) else isFalse (by simp [h])
  | Except.error x, Except.error y =>
    if h : x = y then isTrue (by rw [h]) else isFalse (by simp [h])
  | Except.ok _, Except.error _ => isFalse (by simp)
  | Except.error _, Except.ok _ => isFalse (by simp)

structure QueueTask where
  id : String
  caller : Nat
deriving DecidableEq, Repr

structure RunInfo where
  runId : Nat
  id : String
  waiters : List Nat
deriving DecidableEq, Repr

structure Delivery where
  caller : Nat
  runId : Nat
  result : Except Nat Nat
deriving DecidableEq, Repr

structure QState where
  maxConcurrent : Nat
  queue : List QueueTask
  processing : List (String × Nat)
  running : List RunInfo
  currentlyProcessing : Nat
  nextRun : Nat
  started : List (Nat × String)
  delivered : List Delivery
deriving DecidableEq, Repr

namespace AsyncQueue

/-- Embeds `this.processing.get(id)`. -/
def lookupProc (m : List (String × Nat)) (k : String) : Option Nat :=
  (m.find? (fun p => p.1 == k)).map (fun p => p.2)

/-- Embeds `this.processing.set(k, v)`: replaces any entry under `k`. -/
def insertProc (m : List (String × Nat)) (k : String) (v : Nat) :
    List (String × Nat) :=
  m.filter (fun p => ¬p.1 == k) ++ [(k, v)]

/-- Embeds `this.processing.delete(k)`: removes whatever entry the map holds
under `k`. -/
def eraseProc (m : List (String × Nat)) (k : String) : List (String × Nat) :=
  m.filter (fun p => ¬p.1 == k)

/-- Attaches a late caller as one more waiter of execution `rid`. -/
def attach (rs : List RunInfo) (rid : Nat) (c : Nat) : List RunInfo :=
  rs.map (fun r => if r.runId = rid then { r with waiters := r.waiters ++ [c] } else r)

/-- Embeds one call of `processQueue()`: when a slot is free and the queue
is nonempty, shift the front task, bump the slot count, invoke its fetch
function (a fresh execution id is logged in `started`), and store the
execution promise in `processing` — the `set` runs in the same synchronous
block as the invocation. At most one task starts per call, as in the
source. -/
def processQueue (s : QState) : QState :=
  if s.currentlyProcessing ≥ s.maxConcurrent then s
  else
    match s.queue with
    | [] => s
    | t :: rest =>
      { s with
        queue := rest,
        currentlyProcessing := s.currentlyProcessing + 1,
        running := s.running ++ [⟨s.nextRun, t.id, [t.caller]⟩],
        processing := insertProc s.processing t.id s.nextRun,
        started := s.started ++ [(s.nextRun, t.id)],
        nextRun := s.nextRun + 1 }

/-- Embeds `enqueue(id, fn)` for a caller: if `processing` already holds a
promise for `id`, the caller just awaits it (joins the waiters of that
execution); otherwise the task is pushed in arrival order and
`processQueue()` runs. -/
def enqueue (s : QState) (id : String) (caller : Nat) : QState :=
  match lookupProc s.processing id with
  | some rid => { s with running := attach s.running rid caller }
  | none => processQueue { s with queue := s.queue ++ [⟨id, caller⟩] }

/-- Embeds the settlement of execution `rid` with result `res`: the result
is delivered to every attached waiter, and the `finally` block removes the
`processing` entry for the task id, frees the slot and runs
`processQueue()` — all before any waiter continuation observes the result.
Settling an unknown `rid` is a no-op (no such pending execution exists). -/
def settle (s : QState) (rid : Nat) (res : Except Nat Nat) : QState :=
  match s.running.find? (fun r => r.runId == rid) with
  | none => s
  | some r =>
    processQueue
      { s with
        running := s.running.filter (fun x => ¬x.runId == rid),
        processing := eraseProc s.processing r.id,
        currentlyProcessing := s.currentlyProcessing - 1,
        delivered := s.delivered ++ r.waiters.map (fun c => ⟨c, rid, res⟩) }

inductive Event where
  | enq (id : String) (caller : Nat)
  | settle (rid : Nat) (res : Except Nat Nat)
deriving DecidableEq, Repr

/-- One interleaving step of the scheduler. -/
def step (s : QState) : Event → QState
  | Event.enq id c => enqueue s id c
  | Event.settle rid res => settle s rid res

/-- State of a freshly constructed `AsyncQueue(maxConcurrent)`. -/
def initState (m : Nat) : QState :=
  ⟨m, [], [], [], 0, 0, [], []⟩

/-- Runs a trace of events from an intermediate state. -/
def runFrom (s : QState) (evs : List Event) : QState :=
  evs.foldl step s

/-- Runs a trace of events on a fresh queue with bound `m`. -/
def runEvents (m : Nat) (evs : List Event) : QState :=
  runFrom (initState m) evs

/-- Number of fetch-function invocations performed so far for `id`. -/
def startCount (s : QState) (id : String) : Nat :=
  (s.started.filter (fun p => p.2 == id)).length

/-- Scheduler state invariant: the slot counter equals the number of
currently executing fetches and never exceeds the bound; execution ids are
below `nextRun` and pairwise distinct; deliveries carry execution ids below
`nextRun`; no delivery exists yet for a still-running execution; and any
two deliveries for the same execution carry the same result. -/
def Inv (s : QState) : Prop :=
  s.currentlyProcessing = s.running.length ∧
  s.currentlyProcessing ≤ s.maxConcurrent ∧
  (∀ r ∈ s.running, r.runId < s.nextRun) ∧
  (s.running.map (fun r => r.runId)).Nodup ∧
  (∀ d ∈ s.delivered, d.runId < s.nextRun) ∧
  (∀ r ∈ s.running, ∀ d ∈ s.delivered, d.runId ≠ r.runId) ∧
  (∀ d₁ ∈ s.delivered, ∀ d₂ ∈ s.delivered, d₁.runId = d₂.runId → d₁.result = d₂.result)

end AsyncQueue

namespace LRUCache

variable {T : Type}

theorem find?_some_key {entries : List (Entry T)} {key : String} {e : Entry T}
    (h : entries.find? (fun x => x.key == key) = some e) : e.key = key := by
  have hp := List.find?_some h
  simpa using hp

theorem length_removeKey {entries : List (Entry T)} {key : String} {e : Entry T}
    (h : entries.find? (fun x => x.key == key) = some e) :
    (removeKey entries key).length = entries.length - 1 := by
  have hmem : e ∈ entries := List.mem_of_find?_eq_some h
  have hp := @List.find?_some (Entry T) (fun x => x.key == key) e entries h
  simp only [removeKey]
  exact List.length_eraseP_of_mem hmem hp

theorem nodup_keys_removeKey {entries : List (Entry T)} {key : String}
    (h : (entries.map (fun e => e.key)).Nodup) :
    ((removeKey entries key).map (fun e => e.key)).Nodup :=
  List.Nodup.sublist (List.Sublist.map _ (List.eraseP_sublist entries)) h

theorem find?_removeKey_self {entries : List (Entry T)} {key : String}
    (h : (entries.map (fun e => e.key)).Nodup) :
    (removeKey entries key).find? (fun x => x.key == key) = none := by
  induction entries with
  | nil => rfl
  | cons a l ih =>
    simp only [List.map_cons, List.nodup_cons] at h
    by_cases hpa : a.key = key
    · rw [removeKey, List.eraseP_cons_of_pos (by simp [hpa])]
      rw [List.find?_eq_none]
      intro x hx
      simp only [beq_iff_eq]
      intro hxk
      exact h.1 (by rw [hpa, ← hxk]; exact List.mem_map_of_mem _ hx)
    · rw [removeKey, List.eraseP_cons_of_neg (by simp [hpa])]
      rw [List.find?_cons_of_neg _ (by simp [hpa])]
      exact ih h.2

theorem mem_keys_removeKey {entries : List (Entry T)} {key other : String}
    (hne : other ≠ key) (h : other ∈ entries.map (fun e => e.key)) :
    other ∈ (removeKey entries key).map (fun e => e.key) := by
  induction entries with
  | nil => simp at h
  | cons a l ih =>
    by_cases hpa : a.key = key
    · rw [removeKey, List.eraseP_cons_of_pos (by simp [hpa])]
      simp only [List.map_cons, List.mem_cons] at h
      rcases h with h | h
      · exact absurd (h.trans hpa) hne
      · exact h
    · rw [removeKey, List.eraseP_cons_of_neg (by simp [hpa])]
      simp only [List.map_cons, List.mem_cons] at h ⊢
      rcases h with h | h
      · exact Or.inl h
      · exact Or.inr (ih h)

theorem not_mem_keys_of_find?_none {c : LRUCache T} {k : String}
    (h : c.findNode k = none) : k ∉ c.entries.map (fun e => e.key) := by
  rw [findNode, List.find?_eq_none] at h
  intro hm
  rcases List.mem_map.mp hm with ⟨x, hx, hxk⟩
  exact h x hx (by simp [hxk])

theorem find?_none_of_not_mem_keys {c : LRUCache T} {k : String}
    (h : k ∉ c.entries.map (fun e => e.key)) : c.findNode k = none := by
  rw [findNode, List.find?_eq_none]
  intro x hx
  simp only [beq_iff_eq]
  intro hxk
  exact h (hxk ▸ List.mem_map_of_mem _ hx)

theorem key_not_mem_removeKey {c : LRUCache T} {k : String} {e : Entry T}
    (hnd : (c.entries.map (fun x => x.key)).Nodup)
    (hfind : c.findNode k = some e) :
    e.key ∉ (removeKey c.entries k).map (fun x => x.key) := by
  have hself := @find?_removeKey_self T c.entries k hnd
  rw [List.find?_eq_none] at hself
  have hkey : e.key = k := find?_some_key hfind
  intro hm
  rcases List.mem_map.mp hm with ⟨x, hx, hxk⟩
  exact hself x hx (by simp [hxk, hkey])

/-- Evaluation of `get` on an unknown key. -/
theorem get_eq_none {c : LRUCache T} {k : String} {now : Int}
    (hfind : c.findNode k = none) :
    c.get k now = (none, { c with misses := c.misses + 1 }) := by
  simp [get, hfind]

/-- Evaluation of `get` on an expired entry. -/
theorem get_eq_expired {c : LRUCache T} {k : String} {now : Int} {e : Entry T}
    (hfind : c.findNode k = some e) (hexp : c.isExpired e now = true) :
    c.get k now = (none, { c with entries := removeKey c.entries k, size := c.size - 1, misses := c.misses + 1 }) := by
  simp [get, hfind, hexp]

/-- Evaluation of `get` on a live entry. -/
theorem get_eq_live {c : LRUCache T} {k : String} {now : Int} {e : Entry T}
    (hfind : c.findNode k = some e) (hexp : c.isExpired e now = false) :
    c.get k now = (some e.value, { c with hits := c.hits + 1, entries := e :: removeKey c.entries k }) := by
  simp [get, hfind, hexp]

/-- Evaluation of `has` on an expired entry. -/
theorem has_eq_expired {c : LRUCache T} {k : String} {now : Int} {e : Entry T}
    (hfind : c.findNode k = some e) (hexp : c.isExpired e now = true) :
    c.has k now = (false, { c with entries := removeKey c.entries k, size := c.size - 1 }) := by
  simp [has, hfind, hexp]

/-- Evaluation of `set` on an existing key. -/
theorem set_eq_update {c : LRUCache T} {k : String} {v : T} {now : Int}
    {e : Entry T} (hfind : c.findNode k = some e) :
    c.set k v now = { c with entries := ⟨k, v, now⟩ :: removeKey c.entries k } := by
  simp [set, hfind]

/-- Evaluation of `set` on a fresh key that leaves the cache within capacity. -/
theorem set_eq_fresh {c : LRUCache T} {k : String} {v : T} {now : Int}
    (hfind : c.findNode k = none) (hroom : c.size + 1 ≤ c.capacity) :
    c.set k v now = { c with entries := ⟨k, v, now⟩ :: c.entries, size := c.size + 1 } := by
  simp only [set, hfind]
  rw [if_neg (by omega)]

/-- Evaluation of `set` on a fresh key that pushes the cache over capacity:
the least-recent entry is dropped and the eviction counter is bumped. -/
theorem set_eq_evict {c : LRUCache T} {k : String} {v : T} {now : Int}
    (hfind : c.findNode k = none) (hover : c.size + 1 > c.capacity) :
    c.set k v now = { c with entries := ((⟨k, v, now⟩ : Entry T) :: c.entries).dropLast, size := c.size + 1 - 1, evictions := c.evictions + 1 } := by
  have hne : (⟨k, v, now⟩ : Entry T) :: c.entries ≠ [] := by simp
  rcases Option.isSome_iff_exists.mp (List.getLast?_isSome.mpr hne) with ⟨x, hx⟩
  simp only [set, hfind]
  rw [if_pos (by omega)]
  simp [evictLRU, hx]

/-- Effect of `get` on well-formedness: the result stays well-formed and the
number of live entries never grows. -/
theorem get_WF {c : LRUCache T} {k : String} {now : Int} (h : c.WF) :
    (c.get k now).2.WF ∧ (c.get k now).2.entries.length ≤ c.entries.length ∧
      (c.get k now).2.capacity = c.capacity := by
  obtain ⟨hnd, hsz⟩ := h
  rcases hfind : c.findNode k with _ | e
  · rw [get_eq_none hfind]
    exact ⟨⟨hnd, hsz⟩, le_refl _, rfl⟩
  · have hlen := @length_removeKey T c.entries k e hfind
    have hpos : 0 < c.entries.length :=
      List.length_pos_of_mem (List.mem_of_find?_eq_some hfind)
    cases hexp : c.isExpired e now with
    | true =>
      rw [get_eq_expired hfind hexp]
      refine ⟨⟨nodup_keys_removeKey hnd, ?_⟩, ?_, rfl⟩
      · simp only [hlen]
        omega
      · simp only [hlen]
        omega
    | false =>
      rw [get_eq_live hfind hexp]
      refine ⟨⟨?_, ?_⟩, ?_, rfl⟩
      · exact List.nodup_cons.mpr ⟨key_not_mem_removeKey hnd hfind,
          nodup_keys_removeKey hnd⟩
      · simp only [List.length_cons, hlen]
        omega
      · simp only [List.length_cons, hlen]
        omega

/-- Effect of `has` on well-formedness, mirroring `get_WF`. -/
theorem has_WF {c : LRUCache T} {k : String} {now : Int} (h : c.WF) :
    (c.has k now).2.WF ∧ (c.has k now).2.entries.length ≤ c.entries.length ∧
      (c.has k now).2.capacity = c.capacity := by
  obtain ⟨hnd, hsz⟩ := h
  rcases hfind : c.findNode k with _ | e
  · simp [has, hfind, WF, hnd, hsz]
  · have hlen := @length_removeKey T c.entries k e hfind
    have hpos : 0 < c.entries.length :=
      List.length_pos_of_mem (List.mem_of_find?_eq_some hfind)
    cases hexp : c.isExpired e now with
    | true =>
      rw [has_eq_expired hfind hexp]
      refine ⟨⟨nodup_keys_removeKey hnd, ?_⟩, ?_, rfl⟩
      · simp only [hlen]
        omega
      · simp only [hlen]
        omega
    | false =>
      have heval : c.has k now = (true, c) := by simp [has, hfind, hexp]
      rw [heval]
      exact ⟨⟨hnd, hsz⟩, le_refl _, rfl⟩

/-- Effect of `set` on well-formedness: the result stays well-formed, stays
within capacity when the input did, and keeps the configured capacity. -/
theorem set_WF {c : LRUCache T} {k : String} {v : T} {now : Int}
    (h : c.WF) (hcap : c.size ≤ c.capacity) :
    (c.set k v now).WF ∧ (c.set k v now).size ≤ c.capacity ∧
      (c.set k v now).capacity = c.capacity := by
  obtain ⟨hnd, hsz⟩ := h
  rcases hfind : c.findNode k with _ | e
  · have hndc : ((⟨k, v, now⟩ : Entry T) :: c.entries).map (fun x => x.key)
        |>.Nodup := by
      simp only [List.map_cons]
      exact List.nodup_cons.mpr ⟨not_mem_keys_of_find?_none hfind, hnd⟩
    by_cases hover : c.size + 1 > c.capacity
    · rw [set_eq_evict hfind hover]
      refine ⟨⟨?_, ?_⟩, ?_, rfl⟩
      · exact List.Nodup.sublist (List.Sublist.map _ (List.dropLast_sublist _)) hndc
      · show c.size + 1 - 1 = List.length _
        simp only [List.length_dropLast, List.length_cons, hsz]
      · show c.size + 1 - 1 ≤ c.capacity
        omega
    · rw [set_eq_fresh hfind (by omega)]
      refine ⟨⟨hndc, ?_⟩, ?_, rfl⟩
      · simp [hsz]
      · show c.size + 1 ≤ c.capacity
        omega
  · have hlen := @length_removeKey T c.entries k e hfind
    have hpos : 0 < c.entries.length :=
      List.length_pos_of_mem (List.mem_of_find?_eq_some hfind)
    rw [set_eq_update hfind]
    refine ⟨⟨?_, ?_⟩, hcap, rfl⟩
    · simp only [List.map_cons]
      refine List.nodup_cons.mpr ⟨?_, nodup_keys_removeKey hnd⟩
      have hself := @find?_removeKey_self T c.entries k hnd
      rw [List.find?_eq_none] at hself
      intro hm
      rcases List.mem_map.mp hm with ⟨x, hx, hxk⟩
      exact hself x hx (by simp [hxk])
    · simp only [List.length_cons, hlen, hsz]
      omega

/-- Single sweep-loop step: well-formedness is preserved, the entry count
never grows, and the hit/miss/eviction counters and capacity are untouched. -/
theorem removeStale_WF {c : LRUCache T} {k : String} (h : c.WF) :
    (removeStale c k).WF ∧ (removeStale c k).entries.length ≤ c.entries.length ∧
      (removeStale c k).capacity = c.capacity ∧
      (removeStale c k).evictions = c.evictions := by
  obtain ⟨hnd, hsz⟩ := h
  rcases hfind : c.findNode k with _ | e
  · simp [removeStale, hfind, WF, hnd, hsz]
  · have hlen := @length_removeKey T c.entries k e hfind
    have hpos : 0 < c.entries.length :=
      List.length_pos_of_mem (List.mem_of_find?_eq_some hfind)
    have heval : removeStale c k = { c with entries := removeKey c.entries k, size := c.size - 1 } := by
      simp [removeStale, hfind]
    rw [heval]
    refine ⟨⟨nodup_keys_removeKey hnd, ?_⟩, ?_, rfl, rfl⟩
    · simp only [hlen]
      omega
    · simp only [hlen]
      omega

/-- The sweep loop over any key list preserves well-formedness, never grows
the entry count, and leaves counters and capacity untouched. -/
theorem foldl_removeStale_WF (ks : List String) :
    ∀ c : LRUCache T, c.WF →
      (ks.foldl removeStale c).WF ∧
      (ks.foldl removeStale c).entries.length ≤ c.entries.length ∧
      (ks.foldl removeStale c).capacity = c.capacity ∧
      (ks.foldl removeStale c).evictions = c.evictions := by
  induction ks with
  | nil => exact fun c h => ⟨h, le_refl _, rfl, rfl⟩
  | cons k ks ih =>
    intro c h
    obtain ⟨h1, h2, h3, h4⟩ := @removeStale_WF T c k h
    obtain ⟨g1, g2, g3, g4⟩ := ih (removeStale c k) h1
    exact ⟨g1, le_trans g2 h2, g3.trans h3, g4.trans h4⟩

/-- The periodic sweep preserves well-formedness, never grows the entry
count, and leaves the eviction counter and capacity untouched. -/
theorem cleanupStaleEntries_WF {c : LRUCache T} {now : Int} (h : c.WF) :
    (c.cleanupStaleEntries now).WF ∧
      (c.cleanupStaleEntries now).entries.length ≤ c.entries.length ∧
      (c.cleanupStaleEntries now).capacity = c.capacity ∧
      (c.cleanupStaleEntries now).evictions = c.evictions :=
  foldl_removeStale_WF _ c h

/-- Folding fresh distinct keys that all fit within capacity simply stacks
them most-recent-first: no eviction fires and the counters are untouched. -/
theorem setAll_fresh (ps : List (String × T × Int)) :
    ∀ c : LRUCache T, c.WF →
      (∀ p ∈ ps, p.1 ∉ c.entries.map (fun e => e.key)) →
      (ps.map (fun p => p.1)).Nodup →
      c.entries.length + ps.length ≤ c.capacity →
      (c.setAll ps).entries.map (fun e => e.key) =
          (ps.map (fun p => p.1)).reverse ++ c.entries.map (fun e => e.key) ∧
        (c.setAll ps).WF ∧
        (c.setAll ps).size = c.size + ps.length ∧
        (c.setAll ps).evictions = c.evictions ∧
        (c.setAll ps).capacity = c.capacity := by
  induction ps with
  | nil => exact fun c h _ _ _ => ⟨by simp [setAll], h, rfl, rfl, rfl⟩
  | cons p ps ih =>
    intro c hwf hfresh hnodup hfit
    obtain ⟨hnd, hsz⟩ := hwf
    have hfind : c.findNode p.1 = none := find?_none_of_not_mem_keys (hfresh p (by simp))
    have hroom : c.size + 1 ≤ c.capacity := by
      simp only [List.length_cons] at hfit
      omega
    have hstep : c.set p.1 p.2.1 p.2.2 = { c with entries := ⟨p.1, p.2.1, p.2.2⟩ :: c.entries, size := c.size + 1 } :=
      set_eq_fresh hfind hroom
    have hall : c.setAll (p :: ps) = LRUCache.setAll { c with entries := ⟨p.1, p.2.1, p.2.2⟩ :: c.entries, size := c.size + 1 } ps := by
      simp only [setAll, List.foldl_cons]
      rw [hstep]
    set c1 : LRUCache T := { c with entries := ⟨p.1, p.2.1, p.2.2⟩ :: c.entries, size := c.size + 1 } with hc1
    simp only [List.map_cons, List.nodup_cons] at hnodup
    have hwf1 : c1.WF := by
      constructor
      · simp only [hc1, List.map_cons]
        exact List.nodup_cons.mpr ⟨hfresh p (by simp), hnd⟩
      · simp [hc1, hsz]
    have hfresh1 : ∀ q ∈ ps, q.1 ∉ c1.entries.map (fun e => e.key) := by
      intro q hq
      simp only [hc1, List.map_cons, List.mem_cons, not_or]
      exact ⟨fun hqp => hnodup.1 (hqp ▸ List.mem_map_of_mem _ hq),
        fun hm => hfresh q (List.mem_cons_of_mem _ hq) hm⟩
    have hfit1 : c1.entries.length + ps.length ≤ c1.capacity := by
      simp only [hc1, List.length_cons]
      simp only [List.length_cons] at hfit
      omega
    obtain ⟨g1, g2, g3, g4, g5⟩ := ih c1 hwf1 hfresh1 hnodup.2 hfit1
    rw [hall]
    refine ⟨?_, g2, ?_, g4, g5⟩
    · rw [g1]
      simp [hc1, List.append_assoc]
    · rw [g3]
      simp [hc1]
      omega

/-- One more fresh `set` on a cache already at capacity drops the tail entry
and bumps the eviction counter; the key order is the old order shifted. -/
theorem set_full_evicts {c : LRUCache T} {k : String} {v : T} {now : Int}
    (hfull : c.size = c.capacity)
    (hfresh : k ∉ c.entries.map (fun e => e.key)) :
    (c.set k v now).entries.map (fun e => e.key) =
        (k :: c.entries.map (fun e => e.key)).dropLast ∧
      (c.set k v now).evictions = c.evictions + 1 ∧
      (c.set k v now).size = c.size := by
  have hfind : c.findNode k = none := find?_none_of_not_mem_keys hfresh
  rw [set_eq_evict hfind (by omega)]
  refine ⟨?_, rfl, ?_⟩
  · show List.map (fun e => e.key) (((⟨k, v, now⟩ : Entry T) :: c.entries).dropLast) = _
    rw [List.map_dropLast]
    rfl
  · show c.size + 1 - 1 = c.size
    omega

end LRUCache

namespace AsyncQueue

/-- The `processQueue` transition never touches the delivery log. -/
theorem processQueue_delivered (s : QState) :
    (processQueue s).delivered = s.delivered := by
  rw [processQueue]
  by_cases h : s.currentlyProcessing ≥ s.maxConcurrent
  · rw [if_pos h]
  · rw [if_neg h]
    cases s.queue with
    | nil => rfl
    | cons t rest => rfl

/-- With an empty queue, `processQueue` is the identity. -/
theorem processQueue_queue_nil {s : QState} (h : s.queue = []) :
    processQueue s = s := by
  rw [processQueue]
  by_cases hc : s.currentlyProcessing ≥ s.maxConcurrent
  · rw [if_pos hc]
  · rw [if_neg hc, h]

/-- Attaching a waiter does not change which executions run. -/
theorem attach_map_runId (rs : List RunInfo) (rid c : Nat) :
    (attach rs rid c).map (fun r => r.runId) = rs.map (fun r => r.runId) := by
  induction rs with
  | nil => rfl
  | cons a l ih =>
    by_cases h : a.runId = rid <;>
      simp [attach, h] at ih ⊢ <;> exact ih

/-- Attaching a waiter preserves the number of executions. -/
theorem attach_length (rs : List RunInfo) (rid c : Nat) :
    (attach rs rid c).length = rs.length :=
  List.length_map rs _

/-- Looking up the attached execution returns it with the new waiter. -/
theorem find?_attach {rs : List RunInfo} {rid : Nat} {r : RunInfo} (c : Nat)
    (h : rs.find? (fun x => x.runId == rid) = some r) :
    (attach rs rid c).find? (fun x => x.runId == rid) =
      some { r with waiters := r.waiters ++ [c] } := by
  induction rs with
  | nil => simp [List.find?] at h
  | cons a l ih =>
    by_cases ha : a.runId = rid
    · rw [List.find?_cons_of_pos _ (by simp [ha])] at h
      cases h
      rw [attach, List.map_cons, if_pos ha]
      exact List.find?_cons_of_pos _ (by simp [ha])
    · rw [List.find?_cons_of_neg _ (by simp [ha])] at h
      rw [attach, List.map_cons, if_neg ha]
      rw [List.find?_cons_of_neg _ (by simp [ha])]
      exact ih h

/-- Deleting a key really removes it from the processing map. -/
theorem lookupProc_eraseProc_self (m : List (String × Nat)) (k : String) :
    lookupProc (eraseProc m k) k = none := by
  rw [lookupProc, Option.map_eq_none']
  rw [List.find?_eq_none]
  intro p hp
  rcases List.mem_filter.mp hp with ⟨_, hne⟩
  simpa using hne

/-- Removing the settled execution removes exactly one element when the
execution ids are distinct. -/
theorem length_filter_settle {rs : List RunInfo} {rid : Nat} {r : RunInfo}
    (hnd : (rs.map (fun x => x.runId)).Nodup)
    (h : rs.find? (fun x => x.runId == rid) = some r) :
    (rs.filter (fun x => ¬x.runId == rid)).length + 1 = rs.length := by
  induction rs with
  | nil => simp [List.find?] at h
  | cons a l ih =>
    simp only [List.map_cons, List.nodup_cons] at hnd
    by_cases ha : a.runId = rid
    · rw [List.find?_cons_of_pos _ (by simp [ha])] at h
      rw [List.filter_cons_of_neg (by simp [ha])]
      have hself : List.filter (fun x => ¬x.runId == rid) l = l := by
        rw [List.filter_eq_self]
        intro x hx
        simp only [decide_eq_true_eq, beq_iff_eq]
        intro hxr
        exact hnd.1 (by rw [ha, ← hxr]; exact List.mem_map_of_mem _ hx)
      rw [hself, List.length_cons]
    · rw [List.find?_cons_of_neg _ (by simp [ha])] at h
      rw [List.filter_cons_of_pos (by simp [ha])]
      simp only [List.length_cons]
      rw [← ih hnd.2 h]

theorem mem_attach_runId {rs : List RunInfo} {rid c : Nat} {r' : RunInfo}
    (h : r' ∈ attach rs rid c) : r'.runId ∈ rs.map (fun r => r.runId) := by
  have hm := List.mem_map_of_mem (fun r => r.runId) h
  rwa [attach_map_runId] at hm

theorem Inv_initState (m : Nat) : Inv (initState m) := by
  refine ⟨rfl, Nat.zero_le m, ?_, ?_, ?_, ?_, ?_⟩ <;> simp [initState]

theorem Inv_processQueue {s : QState} (h : Inv s) : Inv (processQueue s) := by
  obtain ⟨h1, h2, h3, h4, h5, h6, h7⟩ := h
  rw [processQueue]
  by_cases hc : s.currentlyProcessing ≥ s.maxConcurrent
  · rw [if_pos hc]
    exact ⟨h1, h2, h3, h4, h5, h6, h7⟩
  · rw [if_neg hc]
    cases hq : s.queue with
    | nil => exact ⟨h1, h2, h3, h4, h5, h6, h7⟩
    | cons t rest =>
      refine ⟨?_, ?_, ?_, ?_, ?_, ?_, ?_⟩
      · show s.currentlyProcessing + 1 =
          (s.running ++ [(⟨s.nextRun, t.id, [t.caller]⟩ : RunInfo)]).length
        simp [h1]
      · show s.currentlyProcessing + 1 ≤ s.maxConcurrent
        omega
      · intro r hr
        show r.runId < s.nextRun + 1
        rcases List.mem_append.mp hr with hr | hr
        · exact Nat.lt_succ_of_lt (h3 r hr)
        · simp only [List.mem_singleton] at hr
          rw [hr]
          exact Nat.lt_succ_self _
      · show ((s.running ++ [(⟨s.nextRun, t.id, [t.caller]⟩ : RunInfo)]).map
          (fun r => r.runId)).Nodup
        rw [List.map_append]
        rw [List.nodup_append]
        refine ⟨h4, List.nodup_singleton _, ?_⟩
        intro x hx hy
        simp only [List.map_cons, List.map_nil, List.mem_singleton] at hy
        rcases List.mem_map.mp hx with ⟨r, hr, hrx⟩
        have hlt := h3 r hr
        omega
      · intro d hd
        exact Nat.lt_succ_of_lt (h5 d hd)
      · intro r hr d hd
        rcases List.mem_append.mp hr with hr | hr
        · exact h6 r hr d hd
        · simp only [List.mem_singleton] at hr
          have hlt := h5 d hd
          rw [hr]
          show d.runId ≠ s.nextRun
          omega
      · exact h7

theorem Inv_enqueue {s : QState} (h : Inv s) (id : String) (c : Nat) :
    Inv (enqueue s id c) := by
  obtain ⟨h1, h2, h3, h4, h5, h6, h7⟩ := h
  rw [enqueue]
  cases hl : lookupProc s.processing id with
  | some rid =>
    refine ⟨?_, h2, ?_, ?_, h5, ?_, h7⟩
    · show s.currentlyProcessing = (attach s.running rid c).length
      rw [attach_length]
      exact h1
    · intro r hr
      rcases List.mem_map.mp (mem_attach_runId hr) with ⟨r₀, hr₀, heq⟩
      rw [← heq]
      exact h3 r₀ hr₀
    · show ((attach s.running rid c).map (fun r => r.runId)).Nodup
      rw [attach_map_runId]
      exact h4
    · intro r hr d hd
      rcases List.mem_map.mp (mem_attach_runId hr) with ⟨r₀, hr₀, heq⟩
      rw [← heq]
      exact h6 r₀ hr₀ d hd
  | none =>
    exact Inv_processQueue ⟨h1, h2, h3, h4, h5, h6, h7⟩

theorem Inv_settle {s : QState} (h : Inv s) (rid : Nat) (res : Except Nat Nat) :
    Inv (settle s rid res) := by
  obtain ⟨h1, h2, h3, h4, h5, h6, h7⟩ := h
  rw [settle]
  cases hf : s.running.find? (fun r => r.runId == rid) with
  | none => exact ⟨h1, h2, h3, h4, h5, h6, h7⟩
  | some r =>
    have hrmem : r ∈ s.running := List.mem_of_find?_eq_some hf
    have hrid : r.runId = rid := by
      have := List.find?_some hf
      simpa using this
    have hlen := length_filter_settle h4 hf
    have hpos : 0 < s.running.length := List.length_pos_of_mem hrmem
    refine Inv_processQueue ⟨?_, ?_, ?_, ?_, ?_, ?_, ?_⟩
    · show s.currentlyProcessing - 1 = (s.running.filter (fun x => ¬x.runId == rid)).length
      omega
    · show s.currentlyProcessing - 1 ≤ s.maxConcurrent
      omega
    · intro r' hr'
      exact h3 r' (List.mem_of_mem_filter hr')
    · show ((s.running.filter (fun x => ¬x.runId == rid)).map (fun r => r.runId)).Nodup
      exact List.Nodup.sublist (List.Sublist.map _ (List.filter_sublist _)) h4
    · intro d hd
      rcases List.mem_append.mp hd with hd | hd
      · exact h5 d hd
      · rcases List.mem_map.mp hd with ⟨c', _, hc'⟩
        rw [← hc']
        show rid < s.nextRun
        rw [← hrid]
        exact h3 r hrmem
    · intro r' hr' d hd
      have hr'mem := List.mem_of_mem_filter hr'
      have hr'ne : r'.runId ≠ rid := by
        have := List.of_mem_filter hr'
        simpa using this
      rcases List.mem_append.mp hd with hd | hd
      · exact h6 r' hr'mem d hd
      · rcases List.mem_map.mp hd with ⟨c', _, hc'⟩
        rw [← hc']
        show rid ≠ r'.runId
        exact fun hx => hr'ne hx.symm
    · intro d₁ hd₁ d₂ hd₂ hdd
      have hold : ∀ d ∈ s.delivered, d.runId ≠ rid := by
        intro d hd
        rw [← hrid]
        exact h6 r hrmem d hd
      rcases List.mem_append.mp hd₁ with hd₁ | hd₁ <;>
        rcases List.mem_append.mp hd₂ with hd₂ | hd₂
      · exact h7 d₁ hd₁ d₂ hd₂ hdd
      · rcases List.mem_map.mp hd₂ with ⟨c₂, _, hc₂⟩
        exact absurd (hdd.trans (by rw [← hc₂])) (hold d₁ hd₁)
      · rcases List.mem_map.mp hd₁ with ⟨c₁, _, hc₁⟩
        exact absurd ((by rw [← hc₁] : d₁.runId = rid).symm.trans hdd).symm
          (hold d₂ hd₂)
      · rcases List.mem_map.mp hd₁ with ⟨c₁, _, hc₁⟩
        rcases List.mem_map.mp hd₂ with ⟨c₂, _, hc₂⟩
        rw [← hc₁, ← hc₂]

theorem Inv_step {s : QState} (h : Inv s) (e : Event) : Inv (step s e) := by
  cases e with
  | enq id c => exact Inv_enqueue h id c
  | settle rid res => exact Inv_settle h rid res

theorem Inv_runFrom (evs : List Event) :
    ∀ s : QState, Inv s → Inv (runFrom s evs) := by
  induction evs with
  | nil => exact fun s h => h
  | cons e evs ih =>
    intro s h
    exact ih (step s e) (Inv_step h e)

theorem Inv_runEvents (m : Nat) (evs : List Event) : Inv (runEvents m evs) :=
  Inv_runFrom evs (initState m) (Inv_initState m)

theorem maxConcurrent_processQueue (s : QState) :
    (processQueue s).maxConcurrent = s.maxConcurrent := by
  rw [processQueue]
  by_cases hc : s.currentlyProcessing ≥ s.maxConcurrent
  · rw [if_pos hc]
  · rw [if_neg hc]
    cases s.queue with
    | nil => rfl
    | cons t rest => rfl

theorem maxConcurrent_step (s : QState) (e : Event) :
    (step s e).maxConcurrent = s.maxConcurrent := by
  cases e with
  | enq id c =>
    rw [step, enqueue]
    cases lookupProc s.processing id with
    | some rid => rfl
    | none => exact maxConcurrent_processQueue _
  | settle rid res =>
    rw [step, settle]
    cases s.running.find? (fun r => r.runId == rid) with
    | none => rfl
    | some r => exact maxConcurrent_processQueue _

theorem maxConcurrent_runFrom (evs : List Event) :
    ∀ s : QState, (runFrom s evs).maxConcurrent = s.maxConcurrent := by
  induction evs with
  | nil => exact fun _ => rfl
  | cons e evs ih =>
    intro s
    rw [runFrom, List.foldl_cons]
    exact (ih (step s e)).trans (maxConcurrent_step s e)

theorem maxConcurrent_runEvents (m : Nat) (evs : List Event) :
    (runEvents m evs).maxConcurrent = m :=
  maxConcurrent_runFrom evs (initState m)

end AsyncQueue

namespace RateLimiter

/-- After `Map.set`, the stored record is the one just written. -/
theorem getClient_setClient (m : List (String × ClientRecord)) (k : String)
    (rec : ClientRecord) : getClient (setClient m k rec) k = some rec := by
  rw [getClient, setClient, List.find?_append]
  have h1 : (m.filter (fun p => ¬p.1 == k)).find? (fun p => p.1 == k) = none := by
    rw [List.find?_eq_none]
    intro p hp
    have hm := List.of_mem_filter hp
    simpa using hm
  rw [h1]
  simp [List.find?]

/-- In a nondecreasing sequence the stored head is the oldest element. -/
theorem headI_le_of_sorted {l : List Int} (h : List.Pairwise (fun a b => a ≤ b) l) :
    ∀ t ∈ l, l.headI ≤ t := by
  cases l with
  | nil =>
    intro t ht
    simp at ht
  | cons a l =>
    intro t ht
    rcases List.mem_cons.mp ht with rfl | ht
    · exact le_refl _
    · exact (List.pairwise_cons.mp h).1 t ht

/-- Pruning a nondecreasing sequence keeps it nondecreasing. -/
theorem pairwise_filter_le {l : List Int} (p : Int → Bool)
    (h : List.Pairwise (fun a b => a ≤ b) l) :
    List.Pairwise (fun a b => a ≤ b) (l.filter p) :=
  List.Pairwise.sublist (List.filter_sublist _) h

end RateLimiter

/-! ## Claims -/

open LRUCache RateLimiter AsyncQueue

/-- C7 — Recency correctness: on a Store with capacity 2, the sequence
`set(a)`, `set(b)`, `get(a)`, `set(c)` evicts key `b` and not key `a`: the
successful `get` promotes `a` to most-recently-used before `set(c)` decides
its eviction, so the final entries are `c` and `a`, key `b` is gone, and
exactly one eviction is counted. -/
theorem spec_c7 :
    ((((LRUCache.empty 2 1000 : LRUCache Nat).set "a" 1 0).set "b" 2 1).get "a" 2).1 = some 1 ∧
    (((((LRUCache.empty 2 1000 : LRUCache Nat).set "a" 1 0).set "b" 2 1).get "a" 2).2.set "c" 3 3).entries.map (fun e => e.key) = ["c", "a"] ∧
    (((((LRUCache.empty 2 1000 : LRUCache Nat).set "a" 1 0).set "b" 2 1).get "a" 2).2.set "c" 3 3).findNode "b" = none ∧
    ((((((LRUCache.empty 2 1000 : LRUCache Nat).set "a" 1 0).set "b" 2 1).get "a" 2).2.set "c" 3 3).findNode "a").isSome = true ∧
    (((((LRUCache.empty 2 1000 : LRUCache Nat).set "a" 1 0).set "b" 2 1).get "a" 2).2.set "c" 3 3).evictions = 1 ∧
    (((((LRUCache.empty 2 1000 : LRUCache Nat).set "a" 1 0).set "b" 2 1).get "a" 2).2.set "c" 3 3).size = 2 := by
  decide

/-- C8 — Expiration on get: on a well-formed store, a `get` of a key whose
entry has age over `ttl` returns absent, counts one miss, physically removes
the entry and shrinks both the reported size and the live-entry count by
one; a `get` of a completely unknown key counts one miss, returns absent and
leaves the entries and the reported size unchanged. -/
theorem spec_c8 {T : Type} (c : LRUCache T) (k : String) (now : Int)
    (hwf : c.WF) :
    (∀ e, c.findNode k = some e → c.isExpired e now = true →
      (c.get k now).1 = none ∧
      (c.get k now).2.misses = c.misses + 1 ∧
      (c.get k now).2.findNode k = none ∧
      (c.get k now).2.size + 1 = c.size ∧
      (c.get k now).2.entries.length + 1 = c.entries.length) ∧
    (c.findNode k = none →
      (c.get k now).1 = none ∧
      (c.get k now).2.misses = c.misses + 1 ∧
      (c.get k now).2.size = c.size ∧
      (c.get k now).2.entries = c.entries) := by
  obtain ⟨hnd, hsz⟩ := hwf
  constructor
  · intro e hfind hexp
    have hlen := @length_removeKey T c.entries k e hfind
    have hpos : 0 < c.entries.length :=
      List.length_pos_of_mem (List.mem_of_find?_eq_some hfind)
    rw [get_eq_expired hfind hexp]
    refine ⟨rfl, rfl, ?_, ?_, ?_⟩
    · exact @find?_removeKey_self T c.entries k hnd
    · show c.size - 1 + 1 = c.size
      omega
    · show (removeKey c.entries k).length + 1 = c.entries.length
      omega
  · intro hfind
    rw [get_eq_none hfind]
    exact ⟨rfl, rfl, rfl, rfl⟩

/-- Witness for C8 at a concrete store: capacity 2, ttl 10, one entry
written at time 0 and read at time 100 (expired), plus a read of an unknown
key. -/
theorem spec_c8_witness :
    (((⟨2, 10, [⟨"a", 5, 0⟩], 0, 0, 1, 0⟩ : LRUCache Nat).get "a" 100).1 = none ∧
     ((⟨2, 10, [⟨"a", 5, 0⟩], 0, 0, 1, 0⟩ : LRUCache Nat).get "a" 100).2.size + 1 = 1) ∧
    ((⟨2, 10, [⟨"a", 5, 0⟩], 0, 0, 1, 0⟩ : LRUCache Nat).get "zz" 100).2.size = 1 := by
  have h := spec_c8 (⟨2, 10, [⟨"a", 5, 0⟩], 0, 0, 1, 0⟩ : LRUCache Nat) "a" 100
    (by constructor <;> decide)
  have h2 := spec_c8 (⟨2, 10, [⟨"a", 5, 0⟩], 0, 0, 1, 0⟩ : LRUCache Nat) "zz" 100
    (by constructor <;> decide)
  have hc := h.1 ⟨"a", 5, 0⟩ (by decide) (by decide)
  exact ⟨⟨hc.1, hc.2.2.2.1⟩, (h2.2 (by decide)).2.2.1⟩

/-- C10 — Eviction counter frame: the evictions counter changes only on the
capacity-triggered branch of `set` (fresh key pushing the live count over
capacity), where it goes up by exactly one; `get`, `has`, `clear` and the
background sweep never change it, even when they remove expired entries —
such removals only shrink the reported size. -/
theorem spec_c10 {T : Type} (c : LRUCache T) (k : String) (v : T) (now : Int)
    (hwf : c.WF) :
    (c.get k now).2.evictions = c.evictions ∧
    (c.has k now).2.evictions = c.evictions ∧
    (c.cleanupStaleEntries now).evictions = c.evictions ∧
    c.clear.evictions = c.evictions ∧
    (∀ e, c.findNode k = some e → (c.set k v now).evictions = c.evictions) ∧
    (c.findNode k = none → c.size + 1 ≤ c.capacity →
      (c.set k v now).evictions = c.evictions) ∧
    (c.findNode k = none → c.capacity < c.size + 1 →
      (c.set k v now).evictions = c.evictions + 1) ∧
    (∀ e, c.findNode k = some e → c.isExpired e now = true →
      (c.has k now).2.size + 1 = c.size ∧ (c.get k now).2.size + 1 = c.size) := by
  obtain ⟨hnd, hsz⟩ := hwf
  have hget : (c.get k now).2.evictions = c.evictions := by
    rcases hfind : c.findNode k with _ | e
    · rw [get_eq_none hfind]
    · cases hexp : c.isExpired e now with
      | true => rw [get_eq_expired hfind hexp]
      | false => rw [get_eq_live hfind hexp]
  have hhas : (c.has k now).2.evictions = c.evictions := by
    rcases hfind : c.findNode k with _ | e
    · simp [has, hfind]
    · cases hexp : c.isExpired e now with
      | true => rw [has_eq_expired hfind hexp]
      | false =>
        have heval : c.has k now = (true, c) := by simp [has, hfind, hexp]
        rw [heval]
  refine ⟨hget, hhas, (cleanupStaleEntries_WF ⟨hnd, hsz⟩).2.2.2, rfl, ?_, ?_, ?_, ?_⟩
  · intro e hfind
    rw [set_eq_update hfind]
  · intro hfind hroom
    rw [set_eq_fresh hfind hroom]
  · intro hfind hover
    rw [set_eq_evict hfind (by omega)]
  · intro e hfind hexp
    have hpos : 0 < c.entries.length :=
      List.length_pos_of_mem (List.mem_of_find?_eq_some hfind)
    constructor
    · rw [has_eq_expired hfind hexp]
      show c.size - 1 + 1 = c.size
      omega
    · rw [get_eq_expired hfind hexp]
      show c.size - 1 + 1 = c.size
      omega

/-- Witness for C10 at a concrete store: a full capacity-1 store where a
fresh `set` evicts (counter goes 0 to 1) and an expired `get` only shrinks
the size. -/
theorem spec_c10_witness :
    ((⟨1, 10, [⟨"a", 5, 0⟩], 0, 0, 1, 0⟩ : LRUCache Nat).get "a" 100).2.evictions = 0 ∧
    ((⟨1, 10, [⟨"a", 5, 0⟩], 0, 0, 1, 0⟩ : LRUCache Nat).set "b" 7 100).evictions = 0 + 1 ∧
    ((⟨1, 10, [⟨"a", 5, 0⟩], 0, 0, 1, 0⟩ : LRUCache Nat).get "a" 100).2.size + 1 = 1 := by
  have h := spec_c10 (⟨1, 10, [⟨"a", 5, 0⟩], 0, 0, 1, 0⟩ : LRUCache Nat) "a" 7 100
    (by constructor <;> decide)
  have h2 := spec_c10 (⟨1, 10, [⟨"a", 5, 0⟩], 0, 0, 1, 0⟩ : LRUCache Nat) "b" 7 100
    (by constructor <;> decide)
  exact ⟨h.1, h2.2.2.2.2.2.2.1 (by decide) (by decide),
    (h.2.2.2.2.2.2.2 ⟨"a", 5, 0⟩ (by decide) (by decide)).2⟩

/-- C2 — Store capacity invariant: on a well-formed store within capacity,
every public operation (`get`, `set`, `has`, `clear`, the background sweep)
leaves both the reported size and the live-entry count at or below
`capacity`; and inserting `N + 1` distinct fresh keys into a store of
capacity `N` with no intervening `get` evicts exactly the first-inserted
key (all later keys survive), counting exactly one eviction and leaving the
size at `N`. -/
theorem spec_c2 {T : Type} (c : LRUCache T) (k : String) (v : T)
    (now ttl : Int) (N : Nat) (ks : List (String × T × Int))
    (p : String × T × Int) (hwf : c.WF) (hcap : c.size ≤ c.capacity)
    (hlen : ks.length = N)
    (hnodup : ((ks ++ [p]).map (fun q => q.1)).Nodup) :
    ((c.get k now).2.size ≤ c.capacity ∧
      (c.get k now).2.entries.length ≤ c.capacity) ∧
    ((c.set k v now).size ≤ c.capacity ∧
      (c.set k v now).entries.length ≤ c.capacity) ∧
    ((c.has k now).2.size ≤ c.capacity ∧
      (c.has k now).2.entries.length ≤ c.capacity) ∧
    (c.clear.size ≤ c.capacity ∧ c.clear.entries.length ≤ c.capacity) ∧
    ((c.cleanupStaleEntries now).size ≤ c.capacity ∧
      (c.cleanupStaleEntries now).entries.length ≤ c.capacity) ∧
    ((LRUCache.empty N ttl : LRUCache T).setAll (ks ++ [p])).evictions = 1 ∧
    ((LRUCache.empty N ttl : LRUCache T).setAll (ks ++ [p])).size = N ∧
    ((LRUCache.empty N ttl : LRUCache T).setAll (ks ++ [p])).entries.map (fun e => e.key) =
      (p.1 :: (ks.map (fun q => q.1)).reverse).dropLast ∧
    ((ks ++ [p]).map (fun q => q.1)).headI ∉
      ((LRUCache.empty N ttl : LRUCache T).setAll (ks ++ [p])).entries.map (fun e => e.key) ∧
    (∀ k₀ ∈ ((ks ++ [p]).map (fun q => q.1)).tail,
      k₀ ∈ ((LRUCache.empty N ttl : LRUCache T).setAll (ks ++ [p])).entries.map (fun e => e.key)) := by
  have hlc : c.entries.length = c.size := hwf.2.symm
  obtain ⟨hgwf, hglen, _⟩ := @get_WF T c k now hwf
  obtain ⟨hswf, hssz, _⟩ := @set_WF T c k v now hwf hcap
  obtain ⟨hhwf, hhlen, _⟩ := @has_WF T c k now hwf
  obtain ⟨hcwf, hclen, _, _⟩ := @cleanupStaleEntries_WF T c now hwf
  -- the dedicated eviction scenario
  have hmap : (ks ++ [p]).map (fun q => q.1) = ks.map (fun q => q.1) ++ [p.1] := by
    simp
  rw [hmap] at hnodup
  rw [List.nodup_append] at hnodup
  obtain ⟨hksnd, _, hdisj⟩ := hnodup
  have hpk : p.1 ∉ ks.map (fun q => q.1) := fun hm =>
    hdisj hm (List.mem_singleton_self _)
  have hbase := setAll_fresh ks (LRUCache.empty N ttl : LRUCache T)
    ⟨List.nodup_nil, rfl⟩ (by intro q hq; simp [LRUCache.empty]) hksnd
    (by simp [LRUCache.empty, hlen])
  obtain ⟨hbkeys, hbwf, hbsz, hbev, hbcap⟩ := hbase
  set base := (LRUCache.empty N ttl : LRUCache T).setAll ks with hbasedef
  have hbkeys2 : base.entries.map (fun e => e.key) = (ks.map (fun q => q.1)).reverse := by
    rw [hbkeys]
    simp [LRUCache.empty]
  have hbsz2 : base.size = N := by
    rw [hbsz, hlen]
    simp [LRUCache.empty]
  have hbcap2 : base.capacity = N := by
    rw [hbcap]
    simp [LRUCache.empty]
  have hsplit : (LRUCache.empty N ttl : LRUCache T).setAll (ks ++ [p]) =
      base.set p.1 p.2.1 p.2.2 := by
    rw [hbasedef, setAll, setAll, List.foldl_append]
    rfl
  have hfreshp : p.1 ∉ base.entries.map (fun e => e.key) := by
    rw [hbkeys2, List.mem_reverse]
    exact hpk
  have hev := @set_full_evicts T base p.1 p.2.1 p.2.2
    (hbsz2.trans hbcap2.symm) hfreshp
  obtain ⟨hekeys, heev, hesz⟩ := hev
  rw [hsplit]
  have hfinkeys : (base.set p.1 p.2.1 p.2.2).entries.map (fun e => e.key) =
      (p.1 :: (ks.map (fun q => q.1)).reverse).dropLast := by
    rw [hekeys, hbkeys2]
  refine ⟨⟨?_, ?_⟩, ⟨hssz, ?_⟩, ⟨?_, ?_⟩, ⟨?_, ?_⟩, ⟨?_, ?_⟩, ?_, ?_, hfinkeys, ?_, ?_⟩
  · rw [hgwf.2]
    exact le_trans hglen (le_trans (le_of_eq hlc) hcap)
  · exact le_trans hglen (le_trans (le_of_eq hlc) hcap)
  · rw [← hswf.2]
    exact hssz
  · rw [hhwf.2]
    exact le_trans hhlen (le_trans (le_of_eq hlc) hcap)
  · exact le_trans hhlen (le_trans (le_of_eq hlc) hcap)
  · exact Nat.zero_le _
  · exact Nat.zero_le _
  · rw [hcwf.2]
    exact le_trans hclen (le_trans (le_of_eq hlc) hcap)
  · exact le_trans hclen (le_trans (le_of_eq hlc) hcap)
  · rw [heev, hbev]
    simp [LRUCache.empty]
  · rw [hesz, hbsz2]
  · -- the first-inserted key is gone
    rw [hfinkeys, hmap]
    cases ks with
    | nil =>
      simp
    | cons q ks' =>
      have hnd' := hksnd
      simp only [List.map_cons, List.nodup_cons] at hnd'
      have hqp : q.1 ≠ p.1 := by
        intro hqp
        exact hpk (hqp ▸ List.mem_map_of_mem (fun x => x.1) (List.mem_cons_self q ks'))
      simp only [List.map_cons, List.reverse_cons, List.headI]
      rw [show (p.1 :: ((ks'.map (fun q => q.1)).reverse ++ [q.1])) =
          (p.1 :: (ks'.map (fun q => q.1)).reverse) ++ [q.1] from rfl,
        List.dropLast_concat]
      simp only [List.mem_cons, List.mem_reverse, not_or]
      exact ⟨hqp, fun hm => hnd'.1 hm⟩
  · -- every later key survives
    intro k₀ hk₀
    rw [hfinkeys]
    rw [hmap] at hk₀
    cases ks with
    | nil =>
      simp at hk₀
    | cons q ks' =>
      simp only [List.map_cons, List.reverse_cons]
      rw [show (p.1 :: ((ks'.map (fun q => q.1)).reverse ++ [q.1])) =
          (p.1 :: (ks'.map (fun q => q.1)).reverse) ++ [q.1] from rfl,
        List.dropLast_concat]
      simp only [List.map_cons, List.cons_append, List.tail_cons] at hk₀
      rcases List.mem_append.mp hk₀ with hm | hm
      · exact List.mem_cons_of_mem _ (List.mem_reverse.mpr hm)
      · simp only [List.mem_singleton] at hm
        rw [hm]
        exact List.mem_cons_self _ _

/-- Witness for C2 at a concrete store: a capacity-2 store holding one live
entry, and the insertion of three distinct keys into a fresh capacity-2
store, which evicts the first key only. -/
theorem spec_c2_witness :
    ((⟨2, 50, [⟨"a", 5, 0⟩], 0, 0, 1, 0⟩ : LRUCache Nat).set "b" 7 1).size ≤ 2 ∧
    ((LRUCache.empty 2 50 : LRUCache Nat).setAll
      [("x", 1, 0), ("y", 2, 1), ("z", 3, 2)]).evictions = 1 ∧
    "x" ∉ ((LRUCache.empty 2 50 : LRUCache Nat).setAll
      [("x", 1, 0), ("y", 2, 1), ("z", 3, 2)]).entries.map (fun e => e.key) := by
  have h := spec_c2 (⟨2, 50, [⟨"a", 5, 0⟩], 0, 0, 1, 0⟩ : LRUCache Nat)
    "b" 7 1 50 2 [("x", 1, 0), ("y", 2, 1)] ("z", 3, 2)
    (by constructor <;> decide) (by decide) (by decide) (by decide)
  exact ⟨h.2.1.1, h.2.2.2.2.2.1, h.2.2.2.2.2.2.2.2.1⟩

/-- C3 — Admission tie-break and retry computation: the burst quota is
checked strictly before the sustained quota, so whenever the pruned burst
sequence has reached `burstRequests` the caller is denied as burst-limited —
even if the sustained quota is also exceeded — with
`retryAfter = ceil((oldest surviving burst timestamp + burstWindow - now) / 1000)`;
only when the burst check passes and the pruned sustained sequence has
reached `maxRequests` is the caller denied with the analogous
sustained-derived value. On nondecreasing recorded sequences the surviving
head used by the computation is the oldest surviving timestamp. -/
theorem spec_c3 (cfg : RateLimitConfig) (clients : List (String × ClientRecord))
    (clientId : String) (now : Int) :
    ((prunedBursts cfg clients clientId now).length ≥ cfg.burstRequests →
      (RateLimiter.middleware cfg clients clientId now).1 =
        Decision.denyBurst (ceilDiv1000
          ((prunedBursts cfg clients clientId now).headI +
            cfg.burstWindowMs - now))) ∧
    ((prunedBursts cfg clients clientId now).length < cfg.burstRequests →
      (prunedRequests cfg clients clientId now).length ≥ cfg.maxRequests →
      (RateLimiter.middleware cfg clients clientId now).1 =
        Decision.denyRate (ceilDiv1000
          ((prunedRequests cfg clients clientId now).headI +
            cfg.windowMs - now))) ∧
    (List.Pairwise (fun a b => a ≤ b)
        (clientRecord clients clientId).burstRequests →
      ∀ t ∈ prunedBursts cfg clients clientId now,
        (prunedBursts cfg clients clientId now).headI ≤ t) := by
  refine ⟨?_, ?_, ?_⟩
  · intro hb
    rw [RateLimiter.middleware]
    rw [if_pos hb]
  · intro hb hr
    rw [RateLimiter.middleware]
    rw [if_neg (by omega), if_pos hr]
  · intro hsorted
    exact headI_le_of_sorted (pairwise_filter_le _ hsorted)

/-- Witness for C3: an identity whose pruned sequences exceed both quotas at
once is denied with the burst-derived retry value (9 seconds here). -/
theorem spec_c3_witness :
    (RateLimiter.middleware ⟨1, 60000, 1, 10000⟩
      [("c", ⟨[0, 5000], [5000]⟩)] "c" 6000).1 = Decision.denyBurst 9 := by
  have h := spec_c3 ⟨1, 60000, 1, 10000⟩ [("c", ⟨[0, 5000], [5000]⟩)] "c" 6000
  have hb := h.1 (by decide)
  rw [hb]
  decide

/-- C9 — Admission ordering: with `maxBurst = 5` and `burstWindow = 10s`
(the source configuration, sustained quota 10 per minute), six admissions
for one identity inside the burst window yield Allow for the first five and
a burst Deny for the sixth, and an admission after the burst window has
fully elapsed is allowed again; in general, an Allow appends the current
time to both pruned sequences of the stored record while a Deny stores the
pruned sequences with nothing appended. -/
theorem spec_c9 (cfg : RateLimitConfig) (clients : List (String × ClientRecord))
    (clientId : String) (now : Int) :
    (RateLimiter.runCalls (⟨10, 60000, 5, 10000⟩ : RateLimitConfig) []
        [("c", 0), ("c", 1000), ("c", 2000), ("c", 3000), ("c", 4000),
         ("c", 5000), ("c", 15000)]).1 =
      [Decision.allow, Decision.allow, Decision.allow, Decision.allow,
       Decision.allow, Decision.denyBurst 5, Decision.allow] ∧
    ((RateLimiter.middleware cfg clients clientId now).1 = Decision.allow →
      getClient (RateLimiter.middleware cfg clients clientId now).2 clientId =
        some ⟨prunedRequests cfg clients clientId now ++ [now],
          prunedBursts cfg clients clientId now ++ [now]⟩) ∧
    ((RateLimiter.middleware cfg clients clientId now).1 ≠ Decision.allow →
      getClient (RateLimiter.middleware cfg clients clientId now).2 clientId =
        some ⟨prunedRequests cfg clients clientId now,
          prunedBursts cfg clients clientId now⟩) := by
  refine ⟨by decide, ?_, ?_⟩
  · intro hallow
    rw [RateLimiter.middleware] at hallow ⊢
    by_cases hb : (prunedBursts cfg clients clientId now).length ≥ cfg.burstRequests
    · rw [if_pos hb] at hallow
      exact absurd hallow (by simp)
    · rw [if_neg hb] at hallow ⊢
      by_cases hr : (prunedRequests cfg clients clientId now).length ≥ cfg.maxRequests
      · rw [if_pos hr] at hallow
        exact absurd hallow (by simp)
      · rw [if_neg hr]
        exact getClient_setClient _ _ _
  · intro hdeny
    rw [RateLimiter.middleware] at hdeny ⊢
    by_cases hb : (prunedBursts cfg clients clientId now).length ≥ cfg.burstRequests
    · rw [if_pos hb]
      exact getClient_setClient _ _ _
    · rw [if_neg hb] at hdeny ⊢
      by_cases hr : (prunedRequests cfg clients clientId now).length ≥ cfg.maxRequests
      · rw [if_pos hr]
        exact getClient_setClient _ _ _
      · rw [if_neg hr] at hdeny
        exact absurd rfl hdeny

/-- Witness for C9: the stored record after an Allow carries the appended
timestamp in both sequences, and after a Deny carries only the pruned
sequences. -/
theorem spec_c9_witness :
    getClient (RateLimiter.middleware ⟨10, 60000, 5, 10000⟩ [] "c" 0).2 "c" =
      some ⟨[0], [0]⟩ ∧
    getClient (RateLimiter.middleware ⟨10, 60000, 5, 10000⟩
        [("c", ⟨[0, 1, 2, 3, 4], [0, 1, 2, 3, 4]⟩)] "c" 5).2 "c" =
      some ⟨[0, 1, 2, 3, 4], [0, 1, 2, 3, 4]⟩ := by
  have h1 := spec_c9 ⟨10, 60000, 5, 10000⟩ [] "c" 0
  have h2 := spec_c9 ⟨10, 60000, 5, 10000⟩
    [("c", ⟨[0, 1, 2, 3, 4], [0, 1, 2, 3, 4]⟩)] "c" 5
  constructor
  · have ha := h1.2.1 (by decide)
    rw [ha]
    decide
  · have hd := h2.2.2 (by decide)
    rw [hd]
    decide

/-- C1 — counterexample to the claim as stated: with `maxConcurrent = 1`,
caller 0 occupies the only slot with key `a`; callers 1 and 2 then issue
`enqueue` for key `b` while the earlier `b` call is still waiting for an
execution slot (so no `b` promise is registered in the in-flight table).
The two calls create two separate tasks: the fetch function for `b` is
invoked twice (not once) and the two callers observe results of different
invocations (10 versus 20). -/
theorem spec_c1_counterexample :
    startCount (runEvents 1
      [Event.enq "a" 0, Event.enq "b" 1, Event.enq "b" 2,
       Event.settle 0 (Except.ok 1), Event.settle 1 (Except.ok 10),
       Event.settle 2 (Except.ok 20)]) "b" = 2 ∧
    ¬startCount (runEvents 1
      [Event.enq "a" 0, Event.enq "b" 1, Event.enq "b" 2,
       Event.settle 0 (Except.ok 1), Event.settle 1 (Except.ok 10),
       Event.settle 2 (Except.ok 20)]) "b" = 1 ∧
    (⟨1, 1, Except.ok 10⟩ : Delivery) ∈ (runEvents 1
      [Event.enq "a" 0, Event.enq "b" 1, Event.enq "b" 2,
       Event.settle 0 (Except.ok 1), Event.settle 1 (Except.ok 10),
       Event.settle 2 (Except.ok 20)]).delivered ∧
    (⟨2, 2, Except.ok 20⟩ : Delivery) ∈ (runEvents 1
      [Event.enq "a" 0, Event.enq "b" 1, Event.enq "b" 2,
       Event.settle 0 (Except.ok 1), Event.settle 1 (Except.ok 10),
       Event.settle 2 (Except.ok 20)]).delivered := by
  decide

/-- C1 (amended) — Single-flight deduplication applies to executing tasks:
an `enqueue` for a key whose promise is registered in the in-flight table
(its fetch is executing) invokes no new fetch — the invocation log, the
pending queue and the fresh-execution counter are unchanged — and the
caller joins that execution: when it settles, the joining caller and every
previously attached waiter all receive the same result. Calls issued while
an earlier call for the key is still waiting for an execution slot are not
covered: they start a separate task (see the counterexample). -/
theorem spec_c1 (s : QState) (id : String) (c rid : Nat) (r : RunInfo)
    (res : Except Nat Nat)
    (h₁ : lookupProc s.processing id = some rid)
    (h₂ : s.running.find? (fun x => x.runId == rid) = some r) :
    (enqueue s id c).started = s.started ∧
    (enqueue s id c).queue = s.queue ∧
    (enqueue s id c).nextRun = s.nextRun ∧
    (⟨c, rid, res⟩ : Delivery) ∈ (settle (enqueue s id c) rid res).delivered ∧
    ∀ c₀ ∈ r.waiters,
      (⟨c₀, rid, res⟩ : Delivery) ∈ (settle (enqueue s id c) rid res).delivered := by
  have he : enqueue s id c = { s with running := attach s.running rid c } := by
    rw [enqueue, h₁]
  have hf := find?_attach c h₂
  have hsettle : (settle (enqueue s id c) rid res).delivered =
      s.delivered ++ (r.waiters ++ [c]).map (fun c₀ => (⟨c₀, rid, res⟩ : Delivery)) := by
    rw [he, settle]
    dsimp only
    rw [hf]
    dsimp only
    rw [processQueue_delivered]
  refine ⟨by rw [he], by rw [he], by rw [he], ?_, ?_⟩
  · rw [hsettle]
    refine List.mem_append_right _ ?_
    exact List.mem_map_of_mem _ (List.mem_append_right _ (List.mem_singleton_self c))
  · intro c₀ hc₀
    rw [hsettle]
    refine List.mem_append_right _ ?_
    exact List.mem_map_of_mem _ (List.mem_append_left _ hc₀)

/-- Witness for C1 (amended) at a concrete state: key `a` is executing, a
second caller joins it without starting a new fetch. -/
theorem spec_c1_witness :
    (enqueue (runEvents 2 [Event.enq "a" 0]) "a" 1).started =
      (runEvents 2 [Event.enq "a" 0]).started ∧
    (⟨1, 0, Except.ok 7⟩ : Delivery) ∈
      (settle (enqueue (runEvents 2 [Event.enq "a" 0]) "a" 1) 0 (Except.ok 7)).delivered := by
  have h := spec_c1 (runEvents 2 [Event.enq "a" 0]) "a" 1 0 ⟨0, "a", [0]⟩
    (Except.ok 7) (by decide) (by decide)
  exact ⟨h.1, h.2.2.2.1⟩

/-- C4 — Concurrency bound: at every instant of every event trace on a
scheduler with bound `m` (any interleaving of `enqueue` calls and task
settlements), the number of simultaneously executing fetch functions — and
the `currentlyProcessing` counter — never exceeds `m`, regardless of how
many distinct keys are requested. -/
theorem spec_c4 (m : Nat) (evs : List Event) :
    (runEvents m evs).running.length ≤ m ∧
    (runEvents m evs).currentlyProcessing ≤ m := by
  obtain ⟨h1, h2, _⟩ := Inv_runEvents m evs
  have hm := maxConcurrent_runEvents m evs
  rw [hm] at h2
  exact ⟨by omega, h2⟩

/-- C5 — Fresh fetch after settlement: settling an execution removes its
key from the in-flight table in the same synchronous block that fans out
the result, so the settled state has no `processing` entry for the key; an
`enqueue` for that key issued after the settlement therefore does not join
the finished task but invokes the fetch function anew (here shown with a
free slot: the invocation log grows by a fresh execution of that key). -/
theorem spec_c5 (s : QState) (rid : Nat) (r : RunInfo) (res : Except Nat Nat)
    (c : Nat)
    (h : s.running.find? (fun x => x.runId == rid) = some r)
    (hq : s.queue = [])
    (hcp : s.currentlyProcessing = s.running.length)
    (hmax : s.currentlyProcessing ≤ s.maxConcurrent) :
    lookupProc (settle s rid res).processing r.id = none ∧
    (enqueue (settle s rid res) r.id c).started =
      (settle s rid res).started ++ [((settle s rid res).nextRun, r.id)] := by
  have hpos : 0 < s.running.length :=
    List.length_pos_of_mem (List.mem_of_find?_eq_some h)
  have hs : settle s rid res =
      { s with
        running := s.running.filter (fun x => ¬x.runId == rid),
        processing := eraseProc s.processing r.id,
        currentlyProcessing := s.currentlyProcessing - 1,
        delivered := s.delivered ++ r.waiters.map (fun c₀ => ⟨c₀, rid, res⟩) } := by
    rw [settle, h]
    exact processQueue_queue_nil hq
  have hlook : lookupProc (settle s rid res).processing r.id = none := by
    rw [hs]
    exact lookupProc_eraseProc_self s.processing r.id
  refine ⟨hlook, ?_⟩
  rw [enqueue]
  rw [hlook]
  rw [hs, processQueue]
  rw [if_neg (by show ¬s.currentlyProcessing - 1 ≥ s.maxConcurrent; omega)]
  rw [hq]
  rfl

/-- Witness for C5 at a concrete state: after the only execution of key `a`
settles, a new `enqueue` of `a` starts a second fetch invocation. -/
theorem spec_c5_witness :
    lookupProc (settle (runEvents 1 [Event.enq "a" 0]) 0 (Except.ok 5)).processing "a" = none ∧
    (enqueue (settle (runEvents 1 [Event.enq "a" 0]) 0 (Except.ok 5)) "a" 9).started =
      (settle (runEvents 1 [Event.enq "a" 0]) 0 (Except.ok 5)).started ++
        [((settle (runEvents 1 [Event.enq "a" 0]) 0 (Except.ok 5)).nextRun, "a")] := by
  exact spec_c5 (runEvents 1 [Event.enq "a" 0]) 0 ⟨0, "a", [0]⟩ (Except.ok 5) 9
    (by decide) (by decide) (by decide) (by decide)

/-- C6 — Identical failure propagation: when an execution settles (in
particular when its fetch function fails), the settlement step appends to
the delivery log exactly one delivery per attached waiter — the creator and
every joined caller — all carrying that one result; and over any event
trace, any two deliveries for the same execution carry equal results, so no
waiter can ever observe a different failure than another waiter of the same
task. -/
theorem spec_c6 (s : QState) (rid : Nat) (r : RunInfo) (res : Except Nat Nat)
    (m : Nat) (evs : List Event)
    (h : s.running.find? (fun x => x.runId == rid) = some r) :
    (settle s rid res).delivered =
      s.delivered ++ r.waiters.map (fun c => (⟨c, rid, res⟩ : Delivery)) ∧
    (∀ d₁ ∈ (runEvents m evs).delivered, ∀ d₂ ∈ (runEvents m evs).delivered,
      d₁.runId = d₂.runId → d₁.result = d₂.result) := by
  constructor
  · rw [settle, h]
    rw [processQueue_delivered]
  · obtain ⟨_, _, _, _, _, _, h7⟩ := Inv_runEvents m evs
    exact h7

/-- Witness for C6 at a concrete state: two callers joined execution 0 of
key `a`; its failure is delivered to both identically. -/
theorem spec_c6_witness :
    (settle (runEvents 2 [Event.enq "a" 0, Event.enq "a" 1]) 0 (Except.error 3)).delivered =
      [] ++ [0, 1].map (fun c => (⟨c, 0, Except.error 3⟩ : Delivery)) := by
  have h := spec_c6 (runEvents 2 [Event.enq "a" 0, Event.enq "a" 1]) 0
    ⟨0, "a", [0, 1]⟩ (Except.error 3) 2 [] (by decide)
  exact h.1

end Spec2Proof
